import Mathlib

/-!
Verification of the dependency-ordered ETL orchestration engine of
Rabbit-in-a-Blender against its natural-language specification.

The definitions below are shallow embeddings of the Python sources:
  * `src/riab/etl/etl_base.py` — the schema catalog (`FieldRow` rows of the
    OMOP field-level CSV), the NOTE_NLP foreign-key correction performed in
    `EtlBase.__init__`, the foreign-key dependency resolver
    `_build_fk_dependency_tree_of_tables`, and `_is_pk_auto_numbering`;
  * `omop-etl/etl/etl.py` — the pipeline driver `Etl.run`,
    `_process_omop_folder` (modelled as the list of stages it performs),
    and `cleanup`;
  * `omop-etl/etl/bigquery/bigquery.py` — `_give_custom_concepts_an_unique_id_above_2bilj`
    (the id allocation itself lives in a SQL template that is not part of the
    sources, so it is modelled from the specification, as marked below).

Python dicts are modelled as association lists (`List (String × _)`) whose
key lists are `Nodup`; Python sets are modelled as `Finset String`;
a raised Python exception is modelled as the `Except.error` branch carrying
the exception's message string.
-/

/-- A raw dependency graph: for each table (dict key) the list of foreign-key
target tables collected by the polars `group_by`/`agg` in
`_build_fk_dependency_tree_of_tables` (nulls already dropped by
`list.drop_nulls`). -/
abbrev Graph0 := List (String × List String)

/-- A prepared dependency graph: for each table the set of foreign-key target
tables, as held in the Python variable `tables_with_fks` after the
"remove circular references" comprehension. -/
abbrev Graph := List (String × Finset String)

/-- Python's `str.lower()`, modelled as a character-wise lower-casing of the
string (the table names involved are ASCII). -/
def lowerStr (s : String) : String := ⟨s.data.map Char.toLower⟩

/-- Python's `str.upper()`, modelled as a character-wise upper-casing of the
string (the table and field names involved are ASCII). -/
def upperStr (s : String) : String := ⟨s.data.map Char.toUpper⟩

/-- Embedding of `dict((k.lower(), set(v.lower() for v in v) - set([k.lower()]))
for k, v in tables_with_fks.items())` in `_build_fk_dependency_tree_of_tables`:
keys are lower-cased, values become lower-cased sets with the self-reference
removed. -/
def removeSelfRefs (g0 : Graph0) : Graph :=
  g0.map (fun kv => (lowerStr kv.1, (kv.2.map lowerStr).toFinset \ {lowerStr kv.1}))

/-- The keys of the dict `tables_with_fks`. -/
def keysOf (g : Graph) : Finset String :=
  (g.map Prod.fst).toFinset

/-- The union of all values of the dict, `set(fk for fks in
tables_with_fks.values() for fk in fks)`. -/
def valuesOf (g : Graph) : Finset String :=
  g.foldr (fun kv s => kv.2 ∪ s) ∅

/-- The keys whose value set is empty, `set(k for k, v in
tables_with_fks.items() if not v)`. -/
def emptyKeysOf (g : Graph) : Finset String :=
  ((g.filter (fun kv => decide (kv.2 = ∅))).map Prod.fst).toFinset

/-- One loop iteration's tier `t` in `_build_fk_dependency_tree_of_tables`:
values that are not keys, together with keys having no remaining value. -/
def nextTier (g : Graph) : Finset String :=
  (valuesOf g \ keysOf g) ∪ emptyKeysOf g

/-- The dict update at the end of each loop iteration:
`dict(((k, set(v) - t) for k, v in tables_with_fks.items() if v))`. -/
def peelStep (g : Graph) (t : Finset String) : Graph :=
  (g.filter (fun kv => decide (kv.2 ≠ ∅))).map (fun kv => (kv.1, kv.2 \ t))

/-- Termination measure for the peeling loop: number of dict entries plus the
total size of all value sets. -/
def gMeasure (g : Graph) : Nat :=
  g.length + (g.map (fun kv => kv.2.card)).sum

/-- Membership in `valuesOf`. -/
lemma mem_valuesOf {g : Graph} {a : String} :
    a ∈ valuesOf g ↔ ∃ kv ∈ g, a ∈ kv.2 := by
  induction g with
  | nil => simp [valuesOf]
  | cons kv g ih =>
    simp only [valuesOf, List.foldr_cons, Finset.mem_union, List.mem_cons] at *
    constructor
    · rintro (h | h)
      · exact ⟨kv, Or.inl rfl, h⟩
      · obtain ⟨kw, hkw, ha⟩ := ih.1 h
        exact ⟨kw, Or.inr hkw, ha⟩
    · rintro ⟨kw, (rfl | hkw), ha⟩
      · exact Or.inl ha
      · exact Or.inr (ih.2 ⟨kw, hkw, ha⟩)

/-- Membership in `keysOf`. -/
lemma mem_keysOf {g : Graph} {a : String} :
    a ∈ keysOf g ↔ ∃ kv ∈ g, kv.1 = a := by
  simp [keysOf]

/-- Membership in `emptyKeysOf`. -/
lemma mem_emptyKeysOf {g : Graph} {a : String} :
    a ∈ emptyKeysOf g ↔ ∃ kv ∈ g, kv.1 = a ∧ kv.2 = ∅ := by
  simp only [emptyKeysOf, List.mem_toFinset, List.mem_map, List.mem_filter,
    decide_eq_true_eq]
  constructor
  · rintro ⟨kv, ⟨hkv, hv⟩, rfl⟩
    exact ⟨kv, hkv, rfl, hv⟩
  · rintro ⟨kv, hkv, rfl, hv⟩
    exact ⟨kv, ⟨hkv, hv⟩, rfl⟩

/-- The peeling loop strictly decreases the measure whenever it recurses. -/
lemma gMeasure_peelStep_lt (g : Graph) (hg : g ≠ []) (ht : nextTier g ≠ ∅) :
    gMeasure (peelStep g (nextTier g)) < gMeasure g := by
  classical
  set t := nextTier g with htdef
  have hlen : (peelStep g t).length = (g.filter (fun kv => decide (kv.2 ≠ ∅))).length := by
    simp [peelStep]
  have hsum : ((peelStep g t).map (fun kv => kv.2.card)).sum
      = ((g.filter (fun kv => decide (kv.2 ≠ ∅))).map (fun kv => (kv.2 \ t).card)).sum := by
    unfold peelStep
    rw [List.map_map]
    rfl
  by_cases hemp : ∃ kv ∈ g, kv.2 = ∅
  · -- some entry has empty value: the filter drops it, the length shrinks
    have hflt : (g.filter (fun kv => decide (kv.2 ≠ ∅))).length < g.length := by
      rw [List.length_filter_lt_length_iff_exists]
      obtain ⟨kv, hkv, hv⟩ := hemp
      exact ⟨kv, hkv, by simp [hv]⟩
    have hsle : ((g.filter (fun kv => decide (kv.2 ≠ ∅))).map (fun kv => (kv.2 \ t).card)).sum
        ≤ (g.map (fun kv => kv.2.card)).sum := by
      calc ((g.filter (fun kv => decide (kv.2 ≠ ∅))).map (fun kv => (kv.2 \ t).card)).sum
          ≤ ((g.filter (fun kv => decide (kv.2 ≠ ∅))).map (fun kv => kv.2.card)).sum :=
            List.sum_le_sum (fun kv _ => Finset.card_le_card (Finset.sdiff_subset))
        _ ≤ (g.map (fun kv => kv.2.card)).sum := by
            apply List.Sublist.sum_le_sum
            · exact (List.filter_sublist g).map _
            · intro x hx
              exact Nat.zero_le x
    have := Nat.add_lt_add_of_lt_of_le hflt hsle
    simpa [gMeasure, hlen, hsum] using this
  · -- all values are nonempty: the tier intersects some value, the sum shrinks
    push_neg at hemp
    have hfeq : g.filter (fun kv => decide (kv.2 ≠ ∅)) = g :=
      List.filter_eq_self.2 (fun kv hkv => by simpa using hemp kv hkv)
    have hek : emptyKeysOf g = ∅ := by
      rw [Finset.eq_empty_iff_forall_not_mem]
      intro a ha
      obtain ⟨kv, hkv, _, hv⟩ := mem_emptyKeysOf.1 ha
      exact hemp kv hkv hv
    have hx : ∃ x, x ∈ t := by
      rcases Finset.nonempty_iff_ne_empty.2 ht with ⟨x, hx⟩
      exact ⟨x, hx⟩
    obtain ⟨x, hxt⟩ := hx
    have hxv : x ∈ valuesOf g := by
      have : t = valuesOf g \ keysOf g := by
        rw [htdef, nextTier, hek, Finset.union_empty]
      rw [this] at hxt
      exact (Finset.mem_sdiff.1 hxt).1
    obtain ⟨kv₀, hkv₀, hxkv₀⟩ := mem_valuesOf.1 hxv
    have hstrict : ((g.map (fun kv => (kv.2 \ t).card)).sum)
        < (g.map (fun kv => kv.2.card)).sum := by
      apply List.sum_lt_sum
      · exact fun kv _ => Finset.card_le_card (Finset.sdiff_subset)
      · refine ⟨kv₀, hkv₀, ?_⟩
        apply Finset.card_lt_card
        constructor
        · exact Finset.sdiff_subset
        · intro hsub
          have := hsub hxkv₀
          rw [Finset.mem_sdiff] at this
          exact this.2 hxt
    have h1 : (peelStep g t).length = g.length := by rw [hlen, hfeq]
    have h2 : ((peelStep g t).map (fun kv => kv.2.card)).sum
        = ((g.map (fun kv => (kv.2 \ t).card)).sum) := by rw [hsum, hfeq]
    have := Nat.add_lt_add_left hstrict g.length
    simpa [gMeasure, h1, h2] using this

/-- Embedding of the `while tables_with_fks:` loop of
`_build_fk_dependency_tree_of_tables`: at each iteration the tier `t` is
computed; if it is empty the loop raises
`Exception("Circular reference in FKs dependency graph")`, otherwise the
sorted tier is appended and the dict is cleaned up. -/
def peel (g : Graph) : Except String (List (List String)) :=
  if hg : g = [] then .ok []
  else if ht : nextTier g = ∅ then
    .error "Circular reference in FKs dependency graph"
  else
    match peel (peelStep g (nextTier g)) with
    | .error e => .error e
    | .ok rest => .ok ((nextTier g).sort (fun a b => a ≤ b) :: rest)
termination_by gMeasure g
decreasing_by exact gMeasure_peelStep_lt g hg ht

/-- Embedding of `_build_fk_dependency_tree_of_tables` (src/riab/etl/etl_base.py):
the graph is lower-cased with self-references removed, the tables without
foreign keys form the first tier, and the remaining dict is peeled tier by
tier.  The returned value is the list of tiers; a raised exception is the
`.error` branch. -/
def build_fk_dependency_tree_of_tables (g0 : Graph0) : Except String (List (List String)) :=
  match peel (((removeSelfRefs g0).filter
      (fun kv => decide (kv.1 ∉ emptyKeysOf (removeSelfRefs g0)))).map
      (fun kv => (kv.1, kv.2 \ emptyKeysOf (removeSelfRefs g0)))) with
  | .error e => .error e
  | .ok rest => .ok ((emptyKeysOf (removeSelfRefs g0)).sort (fun a b => a ≤ b) :: rest)

/-- Python dict semantics: the keys of `tables_with_fks` are pairwise distinct. -/
def NodupKeys (g : Graph) : Prop := (g.map Prod.fst).Nodup

/-- The graph is over the working table set: every foreign-key target is
itself a key of the dict. -/
def ClosedGraph (g : Graph) : Prop := valuesOf g ⊆ keysOf g

instance (g : Graph) : Decidable (NodupKeys g) :=
  List.nodupDecidable _

instance (g : Graph) : Decidable (ClosedGraph g) :=
  inferInstanceAs (Decidable (valuesOf g ⊆ keysOf g))

/-- In a dict (distinct keys), two entries with the same key are the same
entry. -/
lemma entry_eq_of_nodupKeys {g : Graph} (h : NodupKeys g) {e1 e2 : String × Finset String}
    (h1 : e1 ∈ g) (h2 : e2 ∈ g) (hk : e1.1 = e2.1) : e1 = e2 := by
  induction g with
  | nil => cases h1
  | cons kv g ih =>
    simp only [NodupKeys, List.map_cons, List.nodup_cons] at h
    obtain ⟨hne, hnd⟩ := h
    rcases List.mem_cons.1 h1 with rfl | h1' <;> rcases List.mem_cons.1 h2 with rfl | h2'
    · rfl
    · exact absurd (List.mem_map.2 ⟨e2, h2', hk.symm⟩) hne
    · exact absurd (List.mem_map.2 ⟨e1, h1', hk⟩) hne
    · exact ih hnd h1' h2'

/-- Keys of the peeled dict. -/
lemma mem_keysOf_peelStep {g : Graph} {t : Finset String} {a : String} :
    a ∈ keysOf (peelStep g t) ↔ ∃ kv ∈ g, kv.1 = a ∧ kv.2 ≠ ∅ := by
  unfold peelStep
  rw [mem_keysOf]
  constructor
  · rintro ⟨kv', hkv', h1⟩
    obtain ⟨kw, hkwf, rfl⟩ := List.mem_map.1 hkv'
    obtain ⟨hkwg, hkwp⟩ := List.mem_filter.1 hkwf
    exact ⟨kw, hkwg, h1, by simpa using hkwp⟩
  · rintro ⟨kv, hkv, rfl, hne⟩
    exact ⟨(kv.1, kv.2 \ t), List.mem_map.2 ⟨kv, List.mem_filter.2 ⟨hkv, by simpa using hne⟩, rfl⟩, rfl⟩

/-- The peeling step keeps keys distinct. -/
lemma nodupKeys_peelStep {g : Graph} {t : Finset String} (h : NodupKeys g) :
    NodupKeys (peelStep g t) := by
  have hsub : List.Sublist (List.map Prod.fst (g.filter (fun kv => decide (kv.2 ≠ ∅))))
      (List.map Prod.fst g) := (List.filter_sublist g).map Prod.fst
  have hflt : NodupKeys (g.filter (fun kv => decide (kv.2 ≠ ∅))) :=
    List.Nodup.sublist hsub h
  unfold NodupKeys peelStep
  rw [List.map_map]
  exact hflt

/-- The peeling step keeps the graph closed over its keys. -/
lemma closedGraph_peelStep {g : Graph} (hcl : ClosedGraph g) :
    ClosedGraph (peelStep g (nextTier g)) := by
  intro x hx
  obtain ⟨kv', hkv', hxkv'⟩ := mem_valuesOf.1 hx
  unfold peelStep at hkv'
  obtain ⟨kw, hkwf, rfl⟩ := List.mem_map.1 hkv'
  have hkwg : kw ∈ g := List.mem_of_mem_filter hkwf
  have hxkw : x ∈ kw.2 := (Finset.mem_sdiff.1 hxkv').1
  have hxnt : x ∉ nextTier g := (Finset.mem_sdiff.1 hxkv').2
  have hxkg : x ∈ keysOf g := hcl (mem_valuesOf.2 ⟨kw, hkwg, hxkw⟩)
  obtain ⟨ke, hkeg, hke1⟩ := mem_keysOf.1 hxkg
  have hkene : ke.2 ≠ ∅ := by
    intro h0
    exact hxnt (Finset.mem_union_right _ (mem_emptyKeysOf.2 ⟨ke, hkeg, hke1, h0⟩))
  exact mem_keysOf_peelStep.2 ⟨ke, hkeg, hke1, hkene⟩

/-- Every key either has an empty value set (and is peeled now) or survives
into the peeled dict. -/
lemma keysOf_eq_union (g : Graph) (t : Finset String) :
    keysOf g = emptyKeysOf g ∪ keysOf (peelStep g t) := by
  ext a
  rw [Finset.mem_union, mem_keysOf, mem_emptyKeysOf, mem_keysOf_peelStep]
  constructor
  · rintro ⟨kv, hkv, rfl⟩
    by_cases h : kv.2 = ∅
    · exact Or.inl ⟨kv, hkv, rfl, h⟩
    · exact Or.inr ⟨kv, hkv, rfl, h⟩
  · rintro (⟨kv, hkv, rfl, _⟩ | ⟨kv, hkv, rfl, _⟩) <;> exact ⟨kv, hkv, rfl⟩

/-- With distinct keys, a key peeled now cannot also survive. -/
lemma disjoint_emptyKeys_peelStep {g : Graph} {t : Finset String} (h : NodupKeys g) :
    Disjoint (emptyKeysOf g) (keysOf (peelStep g t)) := by
  rw [Finset.disjoint_left]
  intro a ha hb
  obtain ⟨kv, hkv, hk1, hk2⟩ := mem_emptyKeysOf.1 ha
  obtain ⟨kw, hkw, hw1, hw2⟩ := mem_keysOf_peelStep.1 hb
  have : kv = kw := entry_eq_of_nodupKeys h hkv hkw (hk1.trans hw1.symm)
  exact hw2 (this ▸ hk2)

/-- A key with a nonempty remaining value set is not selected into the next
tier. -/
lemma key_not_mem_nextTier {g : Graph} (hnd : NodupKeys g)
    {kv : String × Finset String} (hkv : kv ∈ g) (hne : kv.2 ≠ ∅) :
    kv.1 ∉ nextTier g := by
  intro h
  rcases Finset.mem_union.1 h with h | h
  · exact (Finset.mem_sdiff.1 h).2 (mem_keysOf.2 ⟨kv, hkv, rfl⟩)
  · obtain ⟨kw, hkw, hw1, hw2⟩ := mem_emptyKeysOf.1 h
    have : kw = kv := entry_eq_of_nodupKeys hnd hkw hkv hw1
    exact hne (this ▸ hw2)

/-- Over a closed graph the tier degenerates to the keys without remaining
foreign keys. -/
lemma nextTier_eq_emptyKeys {g : Graph} (hcl : ClosedGraph g) :
    nextTier g = emptyKeysOf g := by
  unfold nextTier
  rw [Finset.sdiff_eq_empty_iff_subset.2 hcl, Finset.empty_union]

/-- Index of the tier containing a given table (length of the tier list when
the table is in no tier). -/
def tierIdxOf (tiers : List (List String)) (k : String) : Nat :=
  tiers.findIdx (fun tier => decide (k ∈ tier))

lemma tierIdxOf_cons_mem {tier : List String} {rest : List (List String)} {k : String}
    (h : k ∈ tier) : tierIdxOf (tier :: rest) k = 0 := by
  simp [tierIdxOf, List.findIdx_cons, h]

lemma tierIdxOf_cons_not_mem {tier : List String} {rest : List (List String)} {k : String}
    (h : k ∉ tier) : tierIdxOf (tier :: rest) k = tierIdxOf rest k + 1 := by
  simp [tierIdxOf, List.findIdx_cons, h]

/-- The loop body never runs on an empty dict. -/
lemma peel_nil : peel [] = .ok [] := by
  rw [peel]
  simp

/-- A nonempty dict with an empty next tier raises the circular-reference
exception. -/
lemma peel_stuck {g : Graph} (hg : g ≠ []) (ht : nextTier g = ∅) :
    peel g = .error "Circular reference in FKs dependency graph" := by
  rw [peel]
  simp [hg, ht]

/-- One unfolding of the loop when a nonempty tier is peeled. -/
lemma peel_unfold {g : Graph} (hg : g ≠ []) (ht : nextTier g ≠ ∅) :
    peel g = match peel (peelStep g (nextTier g)) with
      | .error e => .error e
      | .ok rest => .ok ((nextTier g).sort (fun a b => a ≤ b) :: rest) := by
  rw [peel]
  simp [hg, ht]

/-- Dependency edge of the graph: table `a` has a foreign key to table `b`. -/
def Edge (g : Graph) (a b : String) : Prop :=
  ∃ kv ∈ g, kv.1 = a ∧ b ∈ kv.2

instance (g : Graph) (a b : String) : Decidable (Edge g a b) :=
  List.decidableBEx _ g

/-- The graph contains a (directed) cycle: a nonempty edge walk from some
table back to itself. -/
def HasCycle (g : Graph) : Prop :=
  ∃ a l, l ≠ [] ∧ List.Chain (Edge g) a l ∧ l.getLast? = some a

/-- Along a chain of rank-decreasing edges every element has smaller rank
than the start. -/
lemma rank_lt_of_chain {R : String → String → Prop} {rank : String → Nat}
    (hR : ∀ a b, R a b → rank b < rank a) :
    ∀ (l : List String) (a x : String), List.Chain R a l → x ∈ l → rank x < rank a := by
  intro l
  induction l with
  | nil => intro a x _ hx; cases hx
  | cons b l ih =>
    intro a x hchain hx
    obtain ⟨hab, hbl⟩ := List.chain_cons.1 hchain
    rcases List.mem_cons.1 hx with rfl | hx'
    · exact hR a x hab
    · exact lt_trans (ih b x hbl hx') (hR a b hab)

/-- A graph admitting a rank function that strictly decreases along every
edge has no cycle. -/
lemma not_hasCycle_of_rank (g : Graph) (rank : String → Nat)
    (h : ∀ kv ∈ g, ∀ b ∈ kv.2, rank b < rank kv.1) : ¬ HasCycle g := by
  rintro ⟨a, l, hne, hchain, hlast⟩
  have hR : ∀ x y, Edge g x y → rank y < rank x := by
    rintro x y ⟨kv, hkv, rfl, hy⟩
    exact h kv hkv y hy
  have hmem : a ∈ l := by
    obtain ⟨hhl, hx⟩ := List.mem_getLast?_eq_getLast (l := l) (x := a) (by rw [hlast]; rfl)
    rw [hx]
    exact List.getLast_mem hhl
  exact lt_irrefl _ (rank_lt_of_chain hR l a a hchain hmem)

/-- A chain along the iterates of a successor function. -/
lemma chain_of_iterates {R : String → String → Prop} {a : Nat → String}
    (h : ∀ n, R (a n) (a (n + 1))) :
    ∀ (m s : Nat), List.Chain R (a s) ((List.range' (s + 1) m).map a) := by
  intro m
  induction m with
  | zero => intro s; simp
  | succ m ih =>
    intro s
    rw [List.range'_succ, List.map_cons, List.chain_cons]
    exact ⟨h s, ih (s + 1)⟩

/-- In a nonempty closed graph in which every table still has remaining
foreign keys, there is a cycle.  (This is the situation in which the `while`
loop finds an empty tier.) -/
lemma hasCycle_of_no_empty (g : Graph) (hg : g ≠ []) (hcl : ClosedGraph g)
    (hne : ∀ kv ∈ g, kv.2 ≠ ∅) : HasCycle g := by
  classical
  have hsucc : ∀ x ∈ keysOf g, ∃ y, Edge g x y ∧ y ∈ keysOf g := by
    intro x hx
    obtain ⟨kv, hkv, rfl⟩ := mem_keysOf.1 hx
    obtain ⟨y, hy⟩ := Finset.nonempty_iff_ne_empty.2 (hne kv hkv)
    exact ⟨y, ⟨kv, hkv, rfl, hy⟩, hcl (mem_valuesOf.2 ⟨kv, hkv, hy⟩)⟩
  choose! f hf1 hf2 using hsucc
  obtain ⟨kv₀, hkv₀⟩ := List.exists_mem_of_ne_nil g hg
  have hx₀ : kv₀.1 ∈ keysOf g := mem_keysOf.2 ⟨kv₀, hkv₀, rfl⟩
  set a : Nat → String := fun n => f^[n] kv₀.1 with ha
  have hmem : ∀ n, a n ∈ keysOf g := by
    intro n
    induction n with
    | zero => exact hx₀
    | succ n ih =>
      have : a (n + 1) = f (a n) := by
        rw [ha]
        exact Function.iterate_succ_apply' f n kv₀.1
      rw [this]
      exact hf2 _ ih
  have hstep : ∀ n, Edge g (a n) (a (n + 1)) := by
    intro n
    have : a (n + 1) = f (a n) := by
      rw [ha]
      exact Function.iterate_succ_apply' f n kv₀.1
    rw [this]
    exact hf1 _ (hmem n)
  have hpig : ∃ i ∈ Finset.range ((keysOf g).card + 1),
      ∃ j ∈ Finset.range ((keysOf g).card + 1), i ≠ j ∧ a i = a j := by
    apply Finset.exists_ne_map_eq_of_card_lt_of_maps_to
    · rw [Finset.card_range]
      exact Nat.lt_succ_self _
    · exact fun i _ => hmem i
  obtain ⟨i, _, j, _, hij, haij⟩ := hpig
  -- reduce to the case i < j
  have key : ∀ i j : Nat, i < j → a i = a j → HasCycle g := by
    intro i j hlt heq
    refine ⟨a i, (List.range' (i + 1) (j - i)).map a, ?_, ?_, ?_⟩
    · have : j - i ≠ 0 := Nat.sub_ne_zero_of_lt hlt
      simp [this]
    · exact chain_of_iterates hstep (j - i) i
    · have hj : j - i = (j - i - 1) + 1 := by omega
      rw [hj, List.range'_concat, List.map_append]
      simp only [List.map_cons, List.map_nil]
      rw [List.getLast?_concat]
      have : i + 1 + 1 * (j - i - 1) = j := by omega
      rw [this, heq]
  rcases Nat.lt_or_ge i j with hlt | hge
  · exact key i j hlt haij
  · exact key j i (lt_of_le_of_ne hge (Ne.symm hij)) haij.symm

/-- Edges of the peeled dict were already edges of the dict. -/
lemma edge_peelStep {g : Graph} {t : Finset String} {a b : String}
    (h : Edge (peelStep g t) a b) : Edge g a b := by
  obtain ⟨kv', hkv', h1, hb⟩ := h
  unfold peelStep at hkv'
  obtain ⟨kw, hkwf, rfl⟩ := List.mem_map.1 hkv'
  exact ⟨kw, List.mem_of_mem_filter hkwf, h1, (Finset.mem_sdiff.1 hb).1⟩

/-- A cycle of the peeled dict is a cycle of the dict. -/
lemma hasCycle_of_peelStep {g : Graph} {t : Finset String}
    (h : HasCycle (peelStep g t)) : HasCycle g := by
  obtain ⟨a, l, hl, hchain, hlast⟩ := h
  exact ⟨a, l, hl, hchain.imp (fun x y hxy => edge_peelStep hxy), hlast⟩

/-- Main soundness of the peeling loop on a dict with distinct keys, closed
over its keys: on success, the returned tiers contain each key exactly once
and nothing else, and every foreign key of a table points into a strictly
earlier tier. -/
lemma peel_ok_spec : ∀ (n : Nat) (g : Graph) (tiers : List (List String)),
    gMeasure g ≤ n → NodupKeys g → ClosedGraph g → peel g = .ok tiers →
    tiers.flatten.Nodup ∧ tiers.flatten.toFinset = keysOf g ∧
      ∀ kv ∈ g, ∀ d ∈ kv.2, tierIdxOf tiers d < tierIdxOf tiers kv.1 := by
  intro n
  induction n with
  | zero =>
    intro g tiers hm hnd hcl hok
    have hg : g = [] := by
      have h0 : g.length = 0 := Nat.le_zero.1 (le_trans (Nat.le_add_right _ _) hm)
      exact List.length_eq_zero.1 h0
    subst hg
    rw [peel_nil] at hok
    cases hok
    exact ⟨by simp, by simp [keysOf], by simp⟩
  | succ n ih =>
    intro g tiers hm hnd hcl hok
    by_cases hg : g = []
    · subst hg
      rw [peel_nil] at hok
      cases hok
      exact ⟨by simp, by simp [keysOf], by simp⟩
    · by_cases ht : nextTier g = ∅
      · rw [peel_stuck hg ht] at hok
        cases hok
      · rw [peel_unfold hg ht] at hok
        cases hrec : peel (peelStep g (nextTier g)) with
        | error e =>
          rw [hrec] at hok
          cases hok
        | ok rest =>
          rw [hrec] at hok
          injection hok with hok
          subst hok
          have hm' : gMeasure (peelStep g (nextTier g)) ≤ n :=
            Nat.lt_succ_iff.1 (lt_of_lt_of_le (gMeasure_peelStep_lt g hg ht) hm)
          obtain ⟨ihnd, ihfin, ihrank⟩ := ih (peelStep g (nextTier g)) rest hm'
            (nodupKeys_peelStep hnd) (closedGraph_peelStep hcl) hrec
          have hte : nextTier g = emptyKeysOf g := nextTier_eq_emptyKeys hcl
          refine ⟨?_, ?_, ?_⟩
          · rw [List.flatten_cons, List.nodup_append]
            refine ⟨Finset.sort_nodup _ _, ihnd, ?_⟩
            intro x hx hx'
            have hxt : x ∈ nextTier g := (Finset.mem_sort _).1 hx
            have hxk : x ∈ keysOf (peelStep g (nextTier g)) := by
              rw [← ihfin]
              exact List.mem_toFinset.2 hx'
            exact (Finset.disjoint_left.1 (disjoint_emptyKeys_peelStep hnd))
              (hte ▸ hxt) hxk
          · rw [List.flatten_cons, List.toFinset_append, ihfin, Finset.sort_toFinset, hte]
            exact (keysOf_eq_union g (emptyKeysOf g)).symm
          · intro kv hkv d hd
            by_cases hkv2 : kv.2 = ∅
            · rw [hkv2] at hd
              exact absurd hd (Finset.not_mem_empty d)
            · have hk1 : kv.1 ∉ nextTier g := key_not_mem_nextTier hnd hkv hkv2
              have hk1s : kv.1 ∉ Finset.sort (fun a b => a ≤ b) (nextTier g) := by
                rw [Finset.mem_sort]
                exact hk1
              rw [tierIdxOf_cons_not_mem hk1s]
              by_cases hdt : d ∈ nextTier g
              · rw [tierIdxOf_cons_mem ((Finset.mem_sort _).2 hdt)]
                exact Nat.succ_pos _
              · have hds : d ∉ Finset.sort (fun a b => a ≤ b) (nextTier g) := by
                  rw [Finset.mem_sort]
                  exact hdt
                rw [tierIdxOf_cons_not_mem hds]
                have hmem' : (kv.1, kv.2 \ nextTier g) ∈ peelStep g (nextTier g) :=
                  List.mem_map.2 ⟨kv, List.mem_filter.2 ⟨hkv, by simpa using hkv2⟩, rfl⟩
                have hlt : tierIdxOf rest d < tierIdxOf rest kv.1 :=
                  ihrank _ hmem' d (Finset.mem_sdiff.2 ⟨hd, hdt⟩)
                omega

/-- Every error the loop raises carries the fixed circular-reference
message. -/
lemma peel_error_msg : ∀ (n : Nat) (g : Graph) (e : String), gMeasure g ≤ n →
    peel g = .error e → e = "Circular reference in FKs dependency graph" := by
  intro n
  induction n with
  | zero =>
    intro g e hm herr
    have hg : g = [] := by
      have h0 : g.length = 0 := Nat.le_zero.1 (le_trans (Nat.le_add_right _ _) hm)
      exact List.length_eq_zero.1 h0
    subst hg
    rw [peel_nil] at herr
    cases herr
  | succ n ih =>
    intro g e hm herr
    by_cases hg : g = []
    · subst hg
      rw [peel_nil] at herr
      cases herr
    · by_cases ht : nextTier g = ∅
      · rw [peel_stuck hg ht] at herr
        injection herr with h
        exact h.symm
      · rw [peel_unfold hg ht] at herr
        cases hrec : peel (peelStep g (nextTier g)) with
        | error e' =>
          rw [hrec] at herr
          injection herr with h
          subst h
          exact ih _ _ (Nat.lt_succ_iff.1
            (lt_of_lt_of_le (gMeasure_peelStep_lt g hg ht) hm)) hrec
        | ok rest =>
          rw [hrec] at herr
          cases herr

/-- If the loop raises on a closed dict with distinct keys, the dict
contains a cycle. -/
lemma peel_error_hasCycle : ∀ (n : Nat) (g : Graph) (e : String), gMeasure g ≤ n →
    NodupKeys g → ClosedGraph g → peel g = .error e → HasCycle g := by
  intro n
  induction n with
  | zero =>
    intro g e hm _ _ herr
    have hg : g = [] := by
      have h0 : g.length = 0 := Nat.le_zero.1 (le_trans (Nat.le_add_right _ _) hm)
      exact List.length_eq_zero.1 h0
    subst hg
    rw [peel_nil] at herr
    cases herr
  | succ n ih =>
    intro g e hm hnd hcl herr
    by_cases hg : g = []
    · subst hg
      rw [peel_nil] at herr
      cases herr
    · by_cases ht : nextTier g = ∅
      · have hne : ∀ kv ∈ g, kv.2 ≠ ∅ := by
          intro kv hkv h0
          have h1 : kv.1 ∈ nextTier g :=
            Finset.mem_union_right _ (mem_emptyKeysOf.2 ⟨kv, hkv, rfl, h0⟩)
          rw [ht] at h1
          exact absurd h1 (Finset.not_mem_empty _)
        exact hasCycle_of_no_empty g hg hcl hne
      · rw [peel_unfold hg ht] at herr
        cases hrec : peel (peelStep g (nextTier g)) with
        | error e' =>
          exact hasCycle_of_peelStep (ih _ _ (Nat.lt_succ_iff.1
            (lt_of_lt_of_le (gMeasure_peelStep_lt g hg ht) hm))
            (nodupKeys_peelStep hnd) (closedGraph_peelStep hcl) hrec)
        | ok rest =>
          rw [hrec] at herr
          cases herr

/-- With distinct keys, filtering out the keys of the first tier is the same
as filtering out the entries with an empty value set. -/
lemma filter_not_mem_emptyKeys {g : Graph} (hnd : NodupKeys g) :
    g.filter (fun kv => decide (kv.1 ∉ emptyKeysOf g))
      = g.filter (fun kv => decide (kv.2 ≠ ∅)) := by
  apply List.filter_congr
  intro kv hkv
  rw [decide_eq_decide]
  constructor
  · intro hn h0
    exact hn (mem_emptyKeysOf.2 ⟨kv, hkv, rfl, h0⟩)
  · intro hne hmem
    obtain ⟨kw, hkw, hw1, hw2⟩ := mem_emptyKeysOf.1 hmem
    exact hne ((entry_eq_of_nodupKeys hnd hkw hkv hw1) ▸ hw2)

/-- On a nonempty prepared graph with distinct keys that is closed over its
keys, `_build_fk_dependency_tree_of_tables` computes exactly the peeling
loop: the explicit first step of the Python function coincides with the
first loop iteration. -/
lemma build_eq_peel (g0 : Graph0) (h : removeSelfRefs g0 ≠ [])
    (hnd : NodupKeys (removeSelfRefs g0)) (hcl : ClosedGraph (removeSelfRefs g0)) :
    build_fk_dependency_tree_of_tables g0 = peel (removeSelfRefs g0) := by
  unfold build_fk_dependency_tree_of_tables
  generalize hG : removeSelfRefs g0 = g at h hnd hcl ⊢
  have hte : nextTier g = emptyKeysOf g := nextTier_eq_emptyKeys hcl
  by_cases ht : nextTier g = ∅
  · have hek : emptyKeysOf g = ∅ := by
      rw [← hte]
      exact ht
    have hg1 : (g.filter (fun kv => decide (kv.1 ∉ emptyKeysOf g))).map
        (fun kv => (kv.1, kv.2 \ emptyKeysOf g)) = g := by
      rw [hek]
      have h1 : g.filter (fun kv => decide (kv.1 ∉ (∅ : Finset String))) = g :=
        List.filter_eq_self.2 (fun kv _ => by simp)
      rw [h1]
      have h2 : (fun kv : String × Finset String => (kv.1, kv.2 \ (∅ : Finset String)))
          = id := by
        funext kv
        simp
      rw [h2, List.map_id]
    rw [hg1, peel_stuck h ht]
  · have hg1 : (g.filter (fun kv => decide (kv.1 ∉ emptyKeysOf g))).map
        (fun kv => (kv.1, kv.2 \ emptyKeysOf g)) = peelStep g (nextTier g) := by
      rw [filter_not_mem_emptyKeys hnd, hte]
      rfl
    rw [hg1, peel_unfold h ht, hte]

/-- Every tier the loop emits is a `Finset.sort`, hence strictly sorted. -/
lemma peel_ok_sorted : ∀ (n : Nat) (g : Graph) (tiers : List (List String)),
    gMeasure g ≤ n → peel g = .ok tiers →
    ∀ tier ∈ tiers, List.Sorted (fun a b => a < b) tier := by
  intro n
  induction n with
  | zero =>
    intro g tiers hm hok
    have hg : g = [] := by
      have h0 : g.length = 0 := Nat.le_zero.1 (le_trans (Nat.le_add_right _ _) hm)
      exact List.length_eq_zero.1 h0
    subst hg
    rw [peel_nil] at hok
    cases hok
    simp
  | succ n ih =>
    intro g tiers hm hok
    by_cases hg : g = []
    · subst hg
      rw [peel_nil] at hok
      cases hok
      simp
    · by_cases ht : nextTier g = ∅
      · rw [peel_stuck hg ht] at hok
        cases hok
      · rw [peel_unfold hg ht] at hok
        cases hrec : peel (peelStep g (nextTier g)) with
        | error e =>
          rw [hrec] at hok
          cases hok
        | ok rest =>
          rw [hrec] at hok
          injection hok with hok
          subst hok
          intro tier htier
          rcases List.mem_cons.1 htier with rfl | htier'
          · exact Finset.sort_sorted_lt _
          · exact ih (peelStep g (nextTier g)) rest
              (Nat.lt_succ_iff.1 (lt_of_lt_of_le (gMeasure_peelStep_lt g hg ht) hm))
              hrec tier htier'

/-- On a cyclic prepared graph (distinct keys, closed over its keys) the
resolver raises the fixed circular-reference exception and returns no
tier list. -/
lemma build_error_of_hasCycle (g0 : Graph0)
    (hnd : NodupKeys (removeSelfRefs g0)) (hcl : ClosedGraph (removeSelfRefs g0))
    (hcyc : HasCycle (removeSelfRefs g0)) :
    build_fk_dependency_tree_of_tables g0
      = .error "Circular reference in FKs dependency graph" := by
  have hg : removeSelfRefs g0 ≠ [] := by
    obtain ⟨a, l, hl, hchain, _⟩ := hcyc
    cases l with
    | nil => exact absurd rfl hl
    | cons b l' =>
      obtain ⟨⟨kv, hkv, _⟩, _⟩ := List.chain_cons.1 hchain
      intro h0
      rw [h0] at hkv
      cases hkv
  rw [build_eq_peel g0 hg hnd hcl]
  cases hres : peel (removeSelfRefs g0) with
  | error e =>
    rw [peel_error_msg (gMeasure (removeSelfRefs g0)) _ e le_rfl hres]
  | ok tiers =>
    exfalso
    obtain ⟨_, _, hrank⟩ :=
      peel_ok_spec (gMeasure (removeSelfRefs g0)) _ tiers le_rfl hnd hcl hres
    exact not_hasCycle_of_rank _ (tierIdxOf tiers) hrank hcyc

/-- C1: for every acyclic foreign-key graph over the working table set
(distinct dict keys, every foreign-key target itself in the working set,
no cycle after self-reference removal), `_build_fk_dependency_tree_of_tables`
returns a tier list in which every table of the working set appears in
exactly one tier (the flattened tier list has no duplicates and its set of
entries is exactly the key set), and every foreign key of a table points to
a table in a strictly earlier tier. -/
theorem C1_resolver_partition_and_tier_order (g0 : Graph0)
    (hnd : NodupKeys (removeSelfRefs g0))
    (hcl : ClosedGraph (removeSelfRefs g0))
    (hacyc : ¬ HasCycle (removeSelfRefs g0)) :
    ∃ tiers, build_fk_dependency_tree_of_tables g0 = .ok tiers ∧
      tiers.flatten.Nodup ∧
      tiers.flatten.toFinset = keysOf (removeSelfRefs g0) ∧
      ∀ kv ∈ removeSelfRefs g0, ∀ d ∈ kv.2,
        tierIdxOf tiers d < tierIdxOf tiers kv.1 := by
  by_cases hg : removeSelfRefs g0 = []
  · have hb : build_fk_dependency_tree_of_tables g0 = .ok [[]] := by
      unfold build_fk_dependency_tree_of_tables
      rw [hg]
      simp only [List.filter_nil, List.map_nil, peel_nil]
      have he : emptyKeysOf [] = ∅ := by
        simp [emptyKeysOf]
      rw [he, Finset.sort_empty]
    refine ⟨[[]], hb, by simp, ?_, by simp [hg]⟩
    rw [hg]
    simp [keysOf]
  · cases hres : peel (removeSelfRefs g0) with
    | error e =>
      exact absurd (peel_error_hasCycle (gMeasure (removeSelfRefs g0)) _ e le_rfl
        hnd hcl hres) hacyc
    | ok tiers =>
      obtain ⟨h1, h2, h3⟩ :=
        peel_ok_spec (gMeasure (removeSelfRefs g0)) _ tiers le_rfl hnd hcl hres
      exact ⟨tiers, (build_eq_peel g0 hg hnd hcl).trans hres, h1, h2, h3⟩

/-- Witness for C1 at the concrete acyclic graph
`{"b": ["a"], "a": []}`: the hypotheses hold and the resolver
succeeds with the stated partition and ordering properties. -/
theorem C1_resolver_partition_and_tier_order_witness :
    NodupKeys (removeSelfRefs [("b", ["a"]), ("a", [])]) ∧
    ClosedGraph (removeSelfRefs [("b", ["a"]), ("a", [])]) ∧
    ¬ HasCycle (removeSelfRefs [("b", ["a"]), ("a", [])]) ∧
    (∃ tiers, build_fk_dependency_tree_of_tables [("b", ["a"]), ("a", [])] = .ok tiers ∧
      tiers.flatten.Nodup ∧
      tiers.flatten.toFinset = keysOf (removeSelfRefs [("b", ["a"]), ("a", [])]) ∧
      ∀ kv ∈ removeSelfRefs [("b", ["a"]), ("a", [])], ∀ d ∈ kv.2,
        tierIdxOf tiers d < tierIdxOf tiers kv.1) :=
  have hnd : NodupKeys (removeSelfRefs [("b", ["a"]), ("a", [])]) := by decide
  have hcl : ClosedGraph (removeSelfRefs [("b", ["a"]), ("a", [])]) := by decide
  have hacyc : ¬ HasCycle (removeSelfRefs [("b", ["a"]), ("a", [])]) :=
    not_hasCycle_of_rank _ (fun s => if s = "a" then 0 else 1) (by decide)
  ⟨hnd, hcl, hacyc, C1_resolver_partition_and_tier_order _ hnd hcl hacyc⟩

/-- C2 counterexample: on the concrete cyclic catalog
`{"t1": ["t2"], "t2": ["t1"]}` the resolver does raise, but the raised
error is the fixed message `Circular reference in FKs dependency graph`,
which does not name the tables `t1` and `t2` of the cycle — contrary to the
claim that the error names every table in the cycle. -/
theorem C2_counterexample_error_names_no_tables :
    build_fk_dependency_tree_of_tables [("t1", ["t2"]), ("t2", ["t1"])]
        = .error "Circular reference in FKs dependency graph" ∧
      ¬ ("t1".data <:+: "Circular reference in FKs dependency graph".data) ∧
      ¬ ("t2".data <:+: "Circular reference in FKs dependency graph".data) := by
  refine ⟨?_, by decide, by decide⟩
  apply build_error_of_hasCycle _ (by decide) (by decide)
  exact ⟨"t1", ["t2", "t1"], by decide,
    List.Chain.cons (by decide) (List.Chain.cons (by decide) List.Chain.nil), by decide⟩

/-- C2 (amended): for every input graph whose preparation (lower-casing,
self-reference removal) has distinct keys, is closed over the working table
set and still contains a cycle, the dependency resolver fails by raising an
exception — carrying the fixed message
`Circular reference in FKs dependency graph`, not the names of the tables of
the cycle — and produces no tier output (the error branch carries no
tiers). -/
theorem C2_cyclic_graph_raises (g0 : Graph0)
    (hnd : NodupKeys (removeSelfRefs g0))
    (hcl : ClosedGraph (removeSelfRefs g0))
    (hcyc : HasCycle (removeSelfRefs g0)) :
    build_fk_dependency_tree_of_tables g0
      = .error "Circular reference in FKs dependency graph" :=
  build_error_of_hasCycle g0 hnd hcl hcyc

/-- Witness for C2 (amended) at the concrete cyclic catalog
`{"x": ["y"], "y": ["x"], "z": []}`. -/
theorem C2_cyclic_graph_raises_witness :
    NodupKeys (removeSelfRefs [("x", ["y"]), ("y", ["x"]), ("z", [])]) ∧
    ClosedGraph (removeSelfRefs [("x", ["y"]), ("y", ["x"]), ("z", [])]) ∧
    HasCycle (removeSelfRefs [("x", ["y"]), ("y", ["x"]), ("z", [])]) ∧
    build_fk_dependency_tree_of_tables [("x", ["y"]), ("y", ["x"]), ("z", [])]
      = .error "Circular reference in FKs dependency graph" :=
  have hnd : NodupKeys (removeSelfRefs [("x", ["y"]), ("y", ["x"]), ("z", [])]) := by decide
  have hcl : ClosedGraph (removeSelfRefs [("x", ["y"]), ("y", ["x"]), ("z", [])]) := by decide
  have hcyc : HasCycle (removeSelfRefs [("x", ["y"]), ("y", ["x"]), ("z", [])]) :=
    ⟨"x", ["y", "x"], by decide,
      List.Chain.cons (by decide) (List.Chain.cons (by decide) List.Chain.nil), by decide⟩
  ⟨hnd, hcl, hcyc, C2_cyclic_graph_raises _ hnd hcl hcyc⟩

/-- C8: for every input catalog, every tier of a successful resolution is
listed in strictly increasing lexicographic order (each tier is produced by
`sorted(...)`), and the resolver is a pure function of the catalog —
resolving the same catalog twice yields identical tier lists (the embedding
is side-effect-free by construction; the Python function only reads
`self._df_omop_fields`). -/
theorem C8_tiers_sorted_and_resolver_pure (g0 : Graph0) :
    (∀ tiers, build_fk_dependency_tree_of_tables g0 = .ok tiers →
      ∀ tier ∈ tiers, List.Sorted (fun a b => a < b) tier) ∧
    build_fk_dependency_tree_of_tables g0 = build_fk_dependency_tree_of_tables g0 := by
  refine ⟨?_, rfl⟩
  intro tiers hok tier htier
  unfold build_fk_dependency_tree_of_tables at hok
  cases hrec : peel (((removeSelfRefs g0).filter
      (fun kv => decide (kv.1 ∉ emptyKeysOf (removeSelfRefs g0)))).map
      (fun kv => (kv.1, kv.2 \ emptyKeysOf (removeSelfRefs g0)))) with
  | error e =>
    rw [hrec] at hok
    cases hok
  | ok rest =>
    rw [hrec] at hok
    injection hok with hok
    subst hok
    rcases List.mem_cons.1 htier with rfl | htier'
    · exact Finset.sort_sorted_lt _
    · exact peel_ok_sorted (gMeasure _) _ rest le_rfl hrec tier htier'

/-- Concrete evaluation of the resolver on the two-table catalog
`{"a": [], "b": ["a"]}`. -/
lemma build_eval_ab :
    build_fk_dependency_tree_of_tables [("a", []), ("b", ["a"])] = .ok [["a"], ["b"]] := by
  have h1 : peel [("b", (∅ : Finset String))] = .ok [["b"]] := by
    rw [peel_unfold (by decide) (by decide)]
    have h0 : peelStep [("b", (∅ : Finset String))]
        (nextTier [("b", (∅ : Finset String))]) = [] := by decide
    rw [h0, peel_nil]
    have h2 : nextTier [("b", (∅ : Finset String))] = {"b"} := by decide
    rw [h2, Finset.sort_singleton]
  unfold build_fk_dependency_tree_of_tables
  have hs : ((removeSelfRefs [("a", []), ("b", ["a"])]).filter
      (fun kv => decide (kv.1 ∉ emptyKeysOf (removeSelfRefs [("a", []), ("b", ["a"])])))).map
      (fun kv => (kv.1, kv.2 \ emptyKeysOf (removeSelfRefs [("a", []), ("b", ["a"])])))
      = [("b", (∅ : Finset String))] := by decide
  have he : emptyKeysOf (removeSelfRefs [("a", []), ("b", ["a"])]) = {"a"} := by decide
  rw [hs, h1, he, Finset.sort_singleton]

/-- Witness for C8 at the concrete catalog `{"a": [], "b": ["a"]}`: the
resolver succeeds and both returned tiers are sorted. -/
theorem C8_tiers_sorted_and_resolver_pure_witness :
    build_fk_dependency_tree_of_tables [("a", []), ("b", ["a"])] = .ok [["a"], ["b"]] ∧
    (∀ tier ∈ [["a"], ["b"]], List.Sorted (fun a b => a < b) tier) :=
  ⟨build_eval_ab,
    (C8_tiers_sorted_and_resolver_pure [("a", []), ("b", ["a"])]).1 [["a"], ["b"]] build_eval_ab⟩

/-- The `for omop_table, table_props in vars(self._omop_tables).items():`
loop of `Etl.run` (omop-etl/etl/etl.py): each table is processed in order;
a Python exception raised by `_process_omop_folder` propagates immediately
(there is no `try`/`except` in `Etl.run`). -/
def runTablesLoop (process : String → Except String Unit) : List String → Except String Unit
  | [] => .ok ()
  | t :: rest =>
    match process t with
    | .error e => .error e
    | .ok _ => runTablesLoop process rest

/-- Embedding of `Etl.run` (omop-etl/etl/etl.py): if `only_omop_table` is
set, process just that table, otherwise loop over all tables; afterwards run
`_source_to_concept_map_update_invalid_reason(etl_start)`.  The per-table
work and the final invalidation are abstracted as `Except`-valued
collaborators; a raised exception is the `.error` branch. -/
def etlRun (only : Option String) (tables : List String)
    (process : String → Except String Unit)
    (invalidate : Except String Unit) : Except String Unit :=
  match only with
  | some t =>
    match process t with
    | .error e => .error e
    | .ok _ => invalidate
  | none =>
    match runTablesLoop process tables with
    | .error e => .error e
    | .ok _ => invalidate

/-- A per-table processor that fails on table "a" only. -/
def procFailOnA : String → Except String Unit :=
  fun t => if t = "a" then .error "boom" else .ok ()

/-- C5 counterexample: with the concrete table list `["a", "b"]` and a
processor that raises on table "a", `Etl.run` does not complete with a
failure report — the error propagates out of the run (the run evaluates to
the raised error, not to normal completion), because `Etl.run` and
`_process_omop_folder` contain no error collection. -/
theorem C5_counterexample_error_propagates :
    etlRun .none ["a", "b"] procFailOnA (.ok ()) = .error "boom" ∧
    etlRun .none ["a", "b"] procFailOnA (.ok ()) ≠ .ok () := by
  constructor
  · rfl
  · intro h
    cases h

/-- C5 (amended): an error raised while processing a table propagates out of
the run: processing stops at the first failing table, the remaining tables
and the final stale-mapping invalidation are not executed (the result is the
raised error, whatever the invalidation step would do), and no failure
report is produced. -/
theorem C5_first_error_aborts_run (pre post : List String) (t e : String)
    (process : String → Except String Unit) (invalidate : Except String Unit)
    (hpre : ∀ u ∈ pre, process u = .ok ())
    (ht : process t = .error e) :
    etlRun .none (pre ++ t :: post) process invalidate = .error e := by
  have hloop : ∀ l, (∀ u ∈ l, process u = .ok ()) →
      runTablesLoop process (l ++ t :: post) = .error e := by
    intro l
    induction l with
    | nil =>
      intro _
      simp only [List.nil_append, runTablesLoop, ht]
    | cons u l ih =>
      intro hl
      simp only [List.cons_append, runTablesLoop, hl u (List.mem_cons_self u l)]
      exact ih (fun v hv => hl v (List.mem_cons_of_mem u hv))
  unfold etlRun
  rw [hloop pre hpre]

/-- Witness for C5 (amended) at a concrete run: tables `["b", "a", "c"]`
with the processor failing on "a"; the run evaluates to the raised error. -/
theorem C5_first_error_aborts_run_witness :
    (∀ u ∈ ["b"], procFailOnA u = .ok ()) ∧
    procFailOnA "a" = .error "boom" ∧
    etlRun .none (["b"] ++ "a" :: ["c"]) procFailOnA (.ok ()) = .error "boom" :=
  have hpre : ∀ u ∈ ["b"], procFailOnA u = .ok () := by
    intro u hu
    rw [List.mem_singleton] at hu
    subst hu
    rfl
  ⟨hpre, rfl,
    C5_first_error_aborts_run ["b"] ["c"] "a" "boom" procFailOnA (.ok ()) hpre rfl⟩

/-- A row of the OMOP field-level catalog CSV (`self._df_omop_fields` in
etl_base.py), restricted to the columns the embedded functions read.
`fkTableName`/`fkFieldName` are `Option` to model polars nulls. -/
structure FieldRow where
  cdmTableName : String
  cdmFieldName : String
  isPrimaryKey : String
  isForeignKey : String
  fkTableName : Option String
  fkFieldName : Option String
  cdmDatatype : String
deriving DecidableEq

/-- Embedding of `_is_pk_auto_numbering` (src/riab/etl/etl_base.py): true
iff the filter of the field rows on
`cdmTableName.lower() == omop_table_name`, `isPrimaryKey == "Yes"` and
`cdmDatatype == "integer"` is nonempty. -/
def is_pk_auto_numbering (rows : List FieldRow) (omop_table_name : String) : Bool :=
  decide (0 < (rows.filter (fun r =>
    (lowerStr r.cdmTableName == omop_table_name) &&
    (r.isPrimaryKey == "Yes") &&
    (r.cdmDatatype == "integer"))).length)

/-- The externally visible operations performed by `_process_omop_folder`
for one OMOP table, in order. -/
inductive Stage where
  | uploadCustomConcepts (col : String)
  | applyUsagiMapping (col : String)
  | executeQuery (sqlFile : String)
  | swapPrimaryKey (sqlFile : String)
  | mergeTable (sqlFile : String)
deriving DecidableEq

/-- Python's `sub in s` substring test. -/
def containsSubstr (s sub : String) : Bool := decide (sub.data <:+: s.data)

/-- The `concept_columns` list comprehension of `_process_omop_folder`
(omop-etl/etl/etl.py): columns whose name contains `concept_id` but not
`source_concept_id`. -/
def conceptColumns (columns : List String) : List String :=
  columns.filter (fun c => containsSubstr c "concept_id" && !containsSubstr c "source_concept_id")

/-- Embedding of the control flow of `_process_omop_folder`
(omop-etl/etl/etl.py) as the list of stages it performs: unless the
skip flag is set, every concept column is given a custom-concept upload and
a Usagi mapping (with the column name lower-cased); then for every SQL file
the query is executed, the primary-key swap runs only when
`pk_auto_numbering` holds, and the table is merged. -/
def process_omop_folder (columns : List String) (skip : Bool)
    (pk_auto_numbering : Bool) (sqlFiles : List String) : List Stage :=
  (if skip then []
   else (conceptColumns columns).flatMap
     (fun c => [Stage.uploadCustomConcepts (lowerStr c), Stage.applyUsagiMapping (lowerStr c)]))
  ++ sqlFiles.flatMap (fun f =>
      [Stage.executeQuery f]
      ++ (if pk_auto_numbering then [Stage.swapPrimaryKey f] else [])
      ++ [Stage.mergeTable f])

/-- C6: `_is_pk_auto_numbering(table)` is true iff some catalog field row of
the table is a declared primary key of declared type `integer`; and when it
is false, no primary-key swap stage is executed for the table — its natural
key is used unchanged in the merge. -/
theorem C6_pk_auto_numbering_iff_integer_pk (rows : List FieldRow) (t : String)
    (columns : List String) (skip : Bool) (sqlFiles : List String) :
    (is_pk_auto_numbering rows t = true ↔
      ∃ r ∈ rows, lowerStr r.cdmTableName = t ∧ r.isPrimaryKey = "Yes" ∧
        r.cdmDatatype = "integer") ∧
    (is_pk_auto_numbering rows t = false →
      ∀ f, Stage.swapPrimaryKey f ∉
        process_omop_folder columns skip (is_pk_auto_numbering rows t) sqlFiles) := by
  constructor
  · unfold is_pk_auto_numbering
    rw [decide_eq_true_iff, List.length_pos_iff_exists_mem]
    constructor
    · rintro ⟨r, hr⟩
      obtain ⟨hrm, hp⟩ := List.mem_filter.1 hr
      simp only [Bool.and_eq_true, beq_iff_eq] at hp
      exact ⟨r, hrm, hp.1.1, hp.1.2, hp.2⟩
    · rintro ⟨r, hrm, h1, h2, h3⟩
      exact ⟨r, List.mem_filter.2 ⟨hrm, by simp [h1, h2, h3]⟩⟩
  · intro hfalse f
    rw [hfalse]
    simp only [process_omop_folder, List.mem_append, List.mem_flatMap, Bool.false_eq_true,
      if_false, List.mem_cons, List.not_mem_nil]
    rintro (h | h)
    · split at h
      · exact absurd h (List.not_mem_nil _)
      · obtain ⟨c, _, hc⟩ := List.mem_flatMap.1 h
        simp at hc
    · obtain ⟨f', _, hf⟩ := h
      simp at hf

/-- Witness for C6: a concrete catalog where table "person" has an integer
primary key and table "vocabulary" has a string primary key; for
"vocabulary" the check is false and no swap stage appears. -/
theorem C6_pk_auto_numbering_iff_integer_pk_witness :
    (is_pk_auto_numbering
        [⟨"PERSON", "PERSON_ID", "Yes", "No", none, none, "integer"⟩,
         ⟨"VOCABULARY", "VOCABULARY_ID", "Yes", "No", none, none, "varchar(20)"⟩]
        "vocabulary" = false →
      ∀ f, Stage.swapPrimaryKey f ∉
        process_omop_folder ["vocabulary_concept_id"] false
          (is_pk_auto_numbering
            [⟨"PERSON", "PERSON_ID", "Yes", "No", none, none, "integer"⟩,
             ⟨"VOCABULARY", "VOCABULARY_ID", "Yes", "No", none, none, "varchar(20)"⟩]
            "vocabulary") ["voc.sql"]) ∧
    is_pk_auto_numbering
        [⟨"PERSON", "PERSON_ID", "Yes", "No", none, none, "integer"⟩,
         ⟨"VOCABULARY", "VOCABULARY_ID", "Yes", "No", none, none, "varchar(20)"⟩]
        "vocabulary" = false :=
  ⟨(C6_pk_auto_numbering_iff_integer_pk _ "vocabulary" ["vocabulary_concept_id"]
      false ["voc.sql"]).2, by decide⟩

/-- C9: for a processed table (skip flag unset), the columns receiving a
custom-concept upload, and likewise the columns receiving a Usagi mapping,
are exactly the lower-casings of the table's column names that contain the
substring `concept_id` but not the substring `source_concept_id`. -/
theorem C9_concept_columns_characterisation (columns : List String) (pk : Bool)
    (sqlFiles : List String) (col : String) :
    (Stage.uploadCustomConcepts col ∈ process_omop_folder columns false pk sqlFiles ↔
      ∃ c ∈ columns, ("concept_id".data <:+: c.data) ∧
        ¬ ("source_concept_id".data <:+: c.data) ∧ col = lowerStr c) ∧
    (Stage.applyUsagiMapping col ∈ process_omop_folder columns false pk sqlFiles ↔
      ∃ c ∈ columns, ("concept_id".data <:+: c.data) ∧
        ¬ ("source_concept_id".data <:+: c.data) ∧ col = lowerStr c) := by
  have hsql : ∀ s : Stage, (∀ f : String, s ≠ Stage.executeQuery f ∧ s ≠ Stage.swapPrimaryKey f
      ∧ s ≠ Stage.mergeTable f) →
      s ∉ sqlFiles.flatMap (fun f =>
        [Stage.executeQuery f]
        ++ (if pk then [Stage.swapPrimaryKey f] else [])
        ++ [Stage.mergeTable f]) := by
    intro s hs hmem
    obtain ⟨f, _, hf⟩ := List.mem_flatMap.1 hmem
    obtain ⟨h1, h2, h3⟩ := hs f
    rcases List.mem_append.1 hf with hf' | hf'
    · rcases List.mem_append.1 hf' with hf'' | hf''
      · rw [List.mem_singleton] at hf''
        exact h1 hf''
      · split at hf''
        · rw [List.mem_singleton] at hf''
          exact h2 hf''
        · exact List.not_mem_nil _ hf''
    · rw [List.mem_singleton] at hf'
      exact h3 hf'
  constructor
  · rw [process_omop_folder, if_neg (by simp), List.mem_append]
    constructor
    · rintro (h | h)
      · obtain ⟨c, hc, hmem⟩ := List.mem_flatMap.1 h
        obtain ⟨hcm, hcp⟩ := List.mem_filter.1 hc
        simp only [containsSubstr, Bool.and_eq_true, Bool.not_eq_eq_eq_not, Bool.not_true,
          decide_eq_true_eq, decide_eq_false_iff_not] at hcp
        rcases List.mem_cons.1 hmem with heq | hmem'
        · injection heq with heq
          exact ⟨c, hcm, hcp.1, hcp.2, heq⟩
        · rw [List.mem_singleton] at hmem'
          cases hmem'
      · exact absurd h (hsql _ (fun f => by refine ⟨?_, ?_, ?_⟩ <;> intro h0 <;> cases h0))
    · rintro ⟨c, hcm, h1, h2, rfl⟩
      apply Or.inl
      apply List.mem_flatMap.2
      refine ⟨c, List.mem_filter.2 ⟨hcm, ?_⟩, List.mem_cons_self _ _⟩
      simp [containsSubstr, h1, h2]
  · rw [process_omop_folder, if_neg (by simp), List.mem_append]
    constructor
    · rintro (h | h)
      · obtain ⟨c, hc, hmem⟩ := List.mem_flatMap.1 h
        obtain ⟨hcm, hcp⟩ := List.mem_filter.1 hc
        simp only [containsSubstr, Bool.and_eq_true, Bool.not_eq_eq_eq_not, Bool.not_true,
          decide_eq_true_eq, decide_eq_false_iff_not] at hcp
        rcases List.mem_cons.1 hmem with heq | hmem'
        · cases heq
        · rw [List.mem_singleton] at hmem'
          injection hmem' with heq
          exact ⟨c, hcm, hcp.1, hcp.2, heq⟩
      · exact absurd h (hsql _ (fun f => by refine ⟨?_, ?_, ?_⟩ <;> intro h0 <;> cases h0))
    · rintro ⟨c, hcm, h1, h2, rfl⟩
      apply Or.inl
      apply List.mem_flatMap.2
      refine ⟨c, List.mem_filter.2 ⟨hcm, ?_⟩, ?_⟩
      · simp [containsSubstr, h1, h2]
      · exact List.mem_cons_of_mem _ (List.mem_singleton.2 rfl)

/-- Witness for C9 at a concrete column list: for the `person` table columns,
`gender_concept_id` is mapped while `gender_source_concept_id` and
`person_id` are not. -/
theorem C9_concept_columns_characterisation_witness :
    (Stage.uploadCustomConcepts "gender_concept_id" ∈
        process_omop_folder ["person_id", "Gender_Concept_ID", "gender_source_concept_id"]
          false true ["p.sql"] ↔
      ∃ c ∈ ["person_id", "Gender_Concept_ID", "gender_source_concept_id"],
        ("concept_id".data <:+: c.data) ∧
        ¬ ("source_concept_id".data <:+: c.data) ∧ "gender_concept_id" = lowerStr c) :=
  (C9_concept_columns_characterisation
    ["person_id", "Gender_Concept_ID", "gender_source_concept_id"] true ["p.sql"]
    "gender_concept_id").1

/-- The polars filter predicate used in `EtlBase.__init__` to locate the
mis-declared row: `cdmTableName.upper() == "NOTE_NLP"` and
`cdmFieldName.upper() == "NOTE_ID"`. -/
def noteNlpNoteIdRow (r : FieldRow) : Bool :=
  (upperStr r.cdmTableName == "NOTE_NLP") && (upperStr r.cdmFieldName == "NOTE_ID")

/-- Embedding of the NOTE_NLP foreign-key correction of `EtlBase.__init__`
(src/riab/etl/etl_base.py): the first row matching `noteNlpNoteIdRow` (the
`row_nr` taken with `[0]`) gets `isForeignKey = "Yes"`,
`fkTableName = "NOTE"`, `fkFieldName = "NOTE_ID"`; all other rows are left
unchanged.  `none` models the `IndexError` the Python code raises when no
row matches. -/
def fix_note_nlp_fk : List FieldRow → Option (List FieldRow)
  | [] => none
  | r :: rest =>
    if noteNlpNoteIdRow r then
      some ({ r with
        isForeignKey := "Yes"
        fkTableName := some "NOTE"
        fkFieldName := some "NOTE_ID" } :: rest)
    else
      match fix_note_nlp_fk rest with
      | none => none
      | some rest' => some (r :: rest')

/-- C7: on every catalog containing the NOTE_NLP/NOTE_ID row, the load-time
correction rewrites exactly the first such row — setting only its
`isForeignKey`, `fkTableName` and `fkFieldName` fields to `"Yes"`, `"NOTE"`
and `"NOTE_ID"` — and leaves every other row of the catalog unchanged.
The correction is a pure function of the loaded catalog, hence applied
identically on every run. -/
theorem C7_note_nlp_correction (rows : List FieldRow)
    (hex : ∃ r ∈ rows, noteNlpNoteIdRow r = true) :
    ∃ pre r post, rows = pre ++ r :: post ∧
      (∀ r' ∈ pre, noteNlpNoteIdRow r' = false) ∧
      noteNlpNoteIdRow r = true ∧
      fix_note_nlp_fk rows = some (pre ++
        { r with
          isForeignKey := "Yes"
          fkTableName := some "NOTE"
          fkFieldName := some "NOTE_ID" } :: post) := by
  induction rows with
  | nil =>
    obtain ⟨r, hr, _⟩ := hex
    cases hr
  | cons a rest ih =>
    by_cases ha : noteNlpNoteIdRow a = true
    · refine ⟨[], a, rest, rfl, by simp, ha, ?_⟩
      simp [fix_note_nlp_fk, ha]
    · have hex' : ∃ r ∈ rest, noteNlpNoteIdRow r = true := by
        obtain ⟨r, hr, hrt⟩ := hex
        rcases List.mem_cons.1 hr with rfl | hr'
        · exact absurd hrt ha
        · exact ⟨r, hr', hrt⟩
      obtain ⟨pre, r, post, hrows, hpre, hrt, hfix⟩ := ih hex'
      refine ⟨a :: pre, r, post, by rw [List.cons_append, hrows], ?_, hrt, ?_⟩
      · intro r' hr'
        rcases List.mem_cons.1 hr' with rfl | hr''
        · exact Bool.eq_false_iff.2 ha
        · exact hpre r' hr''
      · simp [fix_note_nlp_fk, ha, hfix]

/-- Witness for C7 at a concrete three-row catalog holding the
NOTE_NLP/NOTE_ID row between two other rows. -/
theorem C7_note_nlp_correction_witness :
    (∃ r ∈ [(⟨"NOTE", "NOTE_ID", "Yes", "No", none, none, "integer"⟩ : FieldRow),
        ⟨"note_nlp", "note_id", "No", "No", none, none, "integer"⟩,
        ⟨"NOTE_NLP", "NOTE_NLP_ID", "Yes", "No", none, none, "integer"⟩],
      noteNlpNoteIdRow r = true) ∧
    (∃ pre r post,
      [(⟨"NOTE", "NOTE_ID", "Yes", "No", none, none, "integer"⟩ : FieldRow),
        ⟨"note_nlp", "note_id", "No", "No", none, none, "integer"⟩,
        ⟨"NOTE_NLP", "NOTE_NLP_ID", "Yes", "No", none, none, "integer"⟩] = pre ++ r :: post ∧
      (∀ r' ∈ pre, noteNlpNoteIdRow r' = false) ∧
      noteNlpNoteIdRow r = true ∧
      fix_note_nlp_fk
          [(⟨"NOTE", "NOTE_ID", "Yes", "No", none, none, "integer"⟩ : FieldRow),
            ⟨"note_nlp", "note_id", "No", "No", none, none, "integer"⟩,
            ⟨"NOTE_NLP", "NOTE_NLP_ID", "Yes", "No", none, none, "integer"⟩]
        = some (pre ++
          { r with
            isForeignKey := "Yes"
            fkTableName := some "NOTE"
            fkFieldName := some "NOTE_ID" } :: post)) :=
  have hex : ∃ r ∈ [(⟨"NOTE", "NOTE_ID", "Yes", "No", none, none, "integer"⟩ : FieldRow),
      ⟨"note_nlp", "note_id", "No", "No", none, none, "integer"⟩,
      ⟨"NOTE_NLP", "NOTE_NLP_ID", "Yes", "No", none, none, "integer"⟩],
      noteNlpNoteIdRow r = true := by decide
  ⟨hex, C7_note_nlp_correction _ hex⟩

/-- Embedding of the truncation part of `cleanup` (omop-etl/etl/etl.py): the
list of OMOP tables passed to `_truncate_omop_table`, in order.  With scope
"all" the `source_to_concept_map` table is truncated first; then every
catalog table except `vocabulary` that matches the requested scope is
truncated.  (Work-table deletion and custom-concept removal are different
operations and are not truncations.) -/
def cleanupTruncations (omopTables : List String) (cleanup_table : String) : List String :=
  (if cleanup_table = "all" then ["source_to_concept_map"] else [])
  ++ (omopTables.filter (fun x => !(x == "vocabulary"))).filter
      (fun tname => (cleanup_table == "all") || (tname == cleanup_table))

/-- C10: for every invocation of `cleanup` — scope "all" or any table
name — the `vocabulary` table is never truncated, and a catalog table is
truncated exactly when it differs from `vocabulary` and matches the
requested scope. -/
theorem C10_cleanup_spares_vocabulary (omopTables : List String) (ct : String) :
    "vocabulary" ∉ cleanupTruncations omopTables ct ∧
    ∀ tname ∈ omopTables,
      (tname ∈ cleanupTruncations omopTables ct ↔
        tname ≠ "vocabulary" ∧ (ct = "all" ∨ tname = ct)) := by
  constructor
  · intro h
    rcases List.mem_append.1 h with h | h
    · split at h
      · rw [List.mem_singleton] at h
        exact absurd h (by decide)
      · exact List.not_mem_nil _ h
    · obtain ⟨h1, _⟩ := List.mem_filter.1 h
      obtain ⟨_, h2⟩ := List.mem_filter.1 h1
      simp at h2
  · intro tname htm
    constructor
    · intro h
      rcases List.mem_append.1 h with h | h
      · split at h
        · rw [List.mem_singleton] at h
          subst h
          refine ⟨by decide, Or.inl (by assumption)⟩
        · exact absurd h (List.not_mem_nil _)
      · obtain ⟨h1, h2⟩ := List.mem_filter.1 h
        obtain ⟨_, h3⟩ := List.mem_filter.1 h1
        simp only [Bool.not_eq_eq_eq_not, Bool.not_true, beq_eq_false_iff_ne] at h3
        simp only [Bool.or_eq_true, beq_iff_eq] at h2
        exact ⟨h3, h2⟩
    · rintro ⟨hne, hor⟩
      apply List.mem_append.2
      apply Or.inr
      apply List.mem_filter.2
      refine ⟨List.mem_filter.2 ⟨htm, by simp [hne]⟩, by simp [hor]⟩

/-- Witness for C10 at a concrete catalog and scope "all": `vocabulary` is
spared while `person` matches. -/
theorem C10_cleanup_spares_vocabulary_witness :
    "vocabulary" ∉ cleanupTruncations ["person", "vocabulary", "note"] "all" ∧
    ("person" ∈ ["person", "vocabulary", "note"] →
      ("person" ∈ cleanupTruncations ["person", "vocabulary", "note"] "all" ↔
        "person" ≠ "vocabulary" ∧ ("all" = "all" ∨ "person" = "all"))) :=
  ⟨(C10_cleanup_spares_vocabulary ["person", "vocabulary", "note"] "all").1,
    (C10_cleanup_spares_vocabulary ["person", "vocabulary", "note"] "all").2 "person"⟩

/-- The reserved lower bound for site-specific concept ids,
`_CUSTOM_CONCEPT_IDS_START = 2_000_000_000` (src/riab/etl/etl_base.py),
passed as `min_custom_concept_id` to the id-swap SQL template by
`_give_custom_concepts_an_unique_id_above_2bilj`
(omop-etl/etl/bigquery/bigquery.py). -/
def CUSTOM_CONCEPT_IDS_START : Nat := 2000000000

/-- Modelled from the spec: the id assignment itself happens in the SQL
template `CONCEPT_ID_swap_merge.sql.jinja`, which is not among the sources;
only its caller `_give_custom_concepts_an_unique_id_above_2bilj` is.
Following §4.2 of the specification, each record is assigned "a new
surrogate id strictly greater than all previously assigned ids in the
reserved space and greater than 2,000,000,000" by a monotonically increasing
counter: record number `i` (0-based) receives
`max prevMax CUSTOM_CONCEPT_IDS_START + i + 1`, where `prevMax` is the
largest id previously assigned in the reserved space. -/
def registerCustomConcepts (prevMax : Nat) (records : List α) : List (α × Nat) :=
  (records.zip (List.range records.length)).map
    (fun ri => (ri.1, max prevMax CUSTOM_CONCEPT_IDS_START + ri.2 + 1))

/-- C3: every assigned surrogate id exceeds `2,000,000,000` and every
previously assigned id; the ids of one run are strictly increasing in
assignment order (hence pairwise distinct, even for records with equal
payloads); and no assigned id collides with the canonical concept catalog,
whose ids all lie below the reserved space. -/
theorem C3_custom_concept_ids_fresh {α : Type} (prevMax : Nat) (records : List α)
    (catalog : Finset Nat)
    (hcat : ∀ c ∈ catalog, c ≤ CUSTOM_CONCEPT_IDS_START) :
    List.Sorted (fun a b => a < b)
      ((registerCustomConcepts prevMax records).map Prod.snd) ∧
    ∀ p ∈ registerCustomConcepts prevMax records,
      CUSTOM_CONCEPT_IDS_START < p.2 ∧ prevMax < p.2 ∧ p.2 ∉ catalog := by
  constructor
  · unfold registerCustomConcepts
    rw [List.map_map]
    have hmap : (Prod.snd ∘ fun ri : α × Nat =>
        (ri.1, max prevMax CUSTOM_CONCEPT_IDS_START + ri.2 + 1))
        = (fun i => max prevMax CUSTOM_CONCEPT_IDS_START + i + 1) ∘ Prod.snd := rfl
    rw [hmap, ← List.map_map]
    rw [List.map_snd_zip _ _ (by rw [List.length_range])]
    rw [List.Sorted, List.pairwise_map]
    apply (List.pairwise_lt_range records.length).imp
    intro i j hij
    omega
  · intro p hp
    unfold registerCustomConcepts at hp
    obtain ⟨ri, hri, rfl⟩ := List.mem_map.1 hp
    refine ⟨by simp; omega, by simp; omega, ?_⟩
    intro hmem
    have := hcat _ hmem
    simp at this
    omega

/-- Witness for C3: two records, no previous assignment, a catalog holding
the canonical id 42. -/
theorem C3_custom_concept_ids_fresh_witness :
    (∀ c ∈ ({42} : Finset Nat), c ≤ CUSTOM_CONCEPT_IDS_START) ∧
    (List.Sorted (fun a b => a < b)
      ((registerCustomConcepts 0 ["x", "y"]).map Prod.snd) ∧
    ∀ p ∈ registerCustomConcepts 0 ["x", "y"],
      CUSTOM_CONCEPT_IDS_START < p.2 ∧ 0 < p.2 ∧ p.2 ∉ ({42} : Finset Nat)) :=
  have hcat : ∀ c ∈ ({42} : Finset Nat), c ≤ CUSTOM_CONCEPT_IDS_START := by decide
  ⟨hcat, C3_custom_concept_ids_fresh 0 ["x", "y"] {42} hcat⟩
